import Mathlib

/-!
Verification development for an RFID tunnel-reading front-end.

The source is a TypeScript application with two near-identical screens.  The
parts with algorithmic content are embedded here as executable Lean
definitions:

* string helpers mirroring the JavaScript primitives used by the source
  (`String.prototype.trim`, `startsWith`, `slice`, `split(/\r?\n/)`,
  `Array.prototype.join('\n')`, `includes`);
* the case ("maleta") reconciliation engine (`getMaletaStatus`,
  `generalSemaphoreStatus`, `hasUnknownTagRead`, export/import of the
  textual case format);
* the tag-identifier extractor (`extractTagId`, `extractAllTagIds`) over a
  generic decoded-JSON value type;
* the read aggregator (`processEvent`, `clearTags`, `clearEvents`) as a
  state-transformer;
* the two-transport realtime connection logic as a small step machine over
  the transport callbacks.
-/

set_option autoImplicit false

/-! ## JavaScript string primitives, modelled over `String.data` -/

/-- Model of `String.prototype.trim`: drop whitespace from both ends of a
character list. -/
def trimChars (cs : List Char) : List Char :=
  ((cs.dropWhile Char.isWhitespace).reverse.dropWhile Char.isWhitespace).reverse

/-- `s.trim()` on strings. -/
def strTrim (s : String) : String :=
  ⟨trimChars s.data⟩

/-- `s.startsWith(p)` on strings. -/
def strStartsWith (s p : String) : Bool :=
  p.data.isPrefixOf s.data

/-- `s.slice(n)` on strings (drop the first `n` characters). -/
def strDrop (s : String) (n : Nat) : String :=
  ⟨s.data.drop n⟩

/-- Splitting a character list at every newline character, the model of
`text.split(/\r?\n/)` (the optional carriage return is eaten by the
per-line `trim` the source always applies afterwards). -/
def splitChars : List Char → List (List Char)
  | [] => [[]]
  | c :: cs =>
    if c = '\n' then [] :: splitChars cs
    else
      match splitChars cs with
      | [] => [[c]]
      | l :: ls => (c :: l) :: ls

/-- `text.split(/\r?\n/)` on strings. -/
def splitLinesNL (s : String) : List String :=
  (splitChars s.data).map (fun cs => ⟨cs⟩)

/-- `lines.join('\n')` at the character-list level. -/
def joinChars : List (List Char) → List Char
  | [] => []
  | [l] => l
  | l :: ls => l ++ '\n' :: joinChars ls

/-- `lines.join('\n')` on strings. -/
def joinLinesNL (lines : List String) : String :=
  ⟨joinChars (lines.map String.data)⟩

/-! ## Case ("maleta") data model and reconciliation engine

Source: the `Maleta` component.  A case is a master RFID plus the product
RFIDs expected inside it; `expiredProductRfids` is the optional subset
manually flagged as expired. -/

structure MaletaItem where
  id : String
  masterRfid : String
  productRfids : List String
  createdAt : String
  expiredProductRfids : Option (List String) := none
  deriving Repr, DecidableEq

inductive SemaphoreStatus where
  | red
  | blue
  | yellow
  | green
  deriving Repr, DecidableEq

/-- `getExpectedTagUnion`: all RFIDs loaded in the cases (masters and
products), trimmed, with the empty string removed.  The source collects
them into a `Set` used only for membership tests, so a list with
membership queries is an equivalent embedding. -/
def getExpectedTagUnion (maletas : List MaletaItem) : List String :=
  (maletas.flatMap
      (fun m => strTrim m.masterRfid :: m.productRfids.map strTrim)).filter
    (fun s => s ≠ "")

/-- `hasUnknownTagRead`: true when at least one read tag is loaded in no
case.  The current read set is passed explicitly (`effectiveReadTags` in
the source). -/
def hasUnknownTagRead (maletas : List MaletaItem) (reads : List String) : Bool :=
  if maletas.isEmpty then false
  else reads.any (fun r => 0 < r.length && !(getExpectedTagUnion maletas).contains r)

/-- `extraUnlistedTags`: the distinct read tags loaded in no case. -/
def extraUnlistedTags (maletas : List MaletaItem) (reads : List String) : List String :=
  if maletas.isEmpty then []
  else
    ((reads.filter
        (fun r => 0 < r.length && !(getExpectedTagUnion maletas).contains r)).foldl
      (fun acc r => if acc.contains r then acc else acc ++ [r]) [])

/-- `getMaletaStatus`: red when the case has expired products, blue when a
non-empty trimmed expected tag is missing from the read set, green
otherwise. -/
def getMaletaStatus (reads : List String) (m : MaletaItem) : SemaphoreStatus :=
  let expired := m.expiredProductRfids.getD []
  if 0 < expired.length then .red
  else
    let expected :=
      ((m.masterRfid :: m.productRfids).map strTrim).filter (fun s => 0 < s.length)
    let missing := expected.filter (fun e => !reads.contains e)
    if 0 < missing.length then .blue else .green

/-- `generalSemaphoreStatus`: the aggregate status over all cases. -/
def generalSemaphoreStatus (maletas : List MaletaItem) (reads : List String) : SemaphoreStatus :=
  if maletas.isEmpty then .green
  else
    let statuses := maletas.map (getMaletaStatus reads)
    if statuses.any (fun s => s == .red) then .red
    else if hasUnknownTagRead maletas reads then .yellow
    else if statuses.any (fun s => s == .yellow) then .yellow
    else if statuses.any (fun s => s == .blue) then .blue
    else .green

/-! Spec-side restatement of the aggregate-status precedence, written from
the words of the claim (zero cases → complete; some case with non-empty
expired set → expired; some read outside the union of all cases' trimmed
master and product tags, empty strings ignored → anomalous; some case
incomplete → incomplete; otherwise complete).  Compared with the source
embedding `generalSemaphoreStatus` by the refinement theorem. -/

/-- Claim-side: the case has a non-empty expired set. -/
def specCaseExpired (m : MaletaItem) : Bool :=
  m.expiredProductRfids.getD [] ≠ []

/-- Claim-side: some tag among the case's trimmed master and product tags
(empty strings excluded) is absent from the read set. -/
def specCaseIncomplete (reads : List String) (m : MaletaItem) : Bool :=
  ((m.masterRfid :: m.productRfids).map strTrim).any
    (fun t => t ≠ "" && !reads.contains t)

/-- Claim-side: the read tag belongs to the union of all cases' trimmed
master and product tags. -/
def specInExpectedUnion (maletas : List MaletaItem) (r : String) : Bool :=
  maletas.any
    (fun m => strTrim m.masterRfid == r || (m.productRfids.map strTrim).contains r)

/-- Claim-side aggregate status, following the claim's stated precedence. -/
def specGeneralStatus (maletas : List MaletaItem) (reads : List String) : SemaphoreStatus :=
  if maletas = [] then .green
  else if maletas.any specCaseExpired then .red
  else if reads.any (fun r => r ≠ "" && !specInExpectedUnion maletas r) then .yellow
  else if maletas.any (specCaseIncomplete reads) then .blue
  else .green

/-! ## Textual export and import of the case list

Source: `exportMaletasToTxt`, `parseMaletasTxt`, `importMaletasFromFile`.
The browser parts (blob download, `FileReader`) are elided; the text
content and the parse/replace logic are embedded.  The `Date`-based parts
of the generated ids and `createdAt` stamps are opaque per the spec and
modelled by the deterministic index part only. -/

/-- The fixed master marker token (`TXT_MAESTRO_PREFIX` in the source). -/
def maestroMarker : String := "MAESTRO "

/-- The lines written by `exportMaletasToTxt`: two comment lines, a blank
line, then for every case its `MAESTRO` line, its trimmed product lines
and a blank separator. -/
def exportMaletasLines (maletas : List MaletaItem) : List String :=
  ["# Maletas - qué hay que leer",
   "# MAESTRO = RFID de la maleta. Líneas debajo = productos hasta el próximo MAESTRO.",
   ""] ++
  maletas.flatMap
    (fun m => (maestroMarker ++ m.masterRfid) :: (m.productRfids.map strTrim ++ [""]))

/-- The text content produced by `exportMaletasToTxt` (lines joined with
a newline). -/
def exportMaletasToTxt (maletas : List MaletaItem) : String :=
  joinLinesNL (exportMaletasLines maletas)

/-- One step of `parseMaletasTxt`'s loop over the trimmed lines.  The
state is the list of cases built so far, most recent first, each with its
products in reverse order; the source's `current` pointer is always the
most recently pushed case (a master line with an empty id after the
marker pushes nothing and leaves `current` alone). -/
def parseMaletasFold (st : List (String × List String)) (line : String) :
    List (String × List String) :=
  if line = "" || strStartsWith line "#" then st
  else if strStartsWith line maestroMarker then
    let masterRfid := strTrim (strDrop line maestroMarker.length)
    if masterRfid = "" then st else (masterRfid, []) :: st
  else
    match st with
    | [] => []
    | (mst, ps) :: rest => (mst, line :: ps) :: rest

/-- `parseMaletasTxt`: split the text into lines, trim each, and run the
marker/product loop.  Ids carry only their deterministic index part. -/
def parseMaletasTxt (text : String) : List MaletaItem :=
  let lines := (splitLinesNL text).map strTrim
  ((lines.foldl parseMaletasFold []).reverse.enum.map
    (fun p => { id := "maleta_" ++ toString p.1,
                masterRfid := p.2.1,
                productRfids := p.2.2.reverse,
                createdAt := "" : MaletaItem }))

/-- `importMaletasFromFile`: the loaded cases replace the current ones
only when the parse produced at least one case. -/
def importMaletas (current : List MaletaItem) (text : String) : List MaletaItem :=
  let loaded := parseMaletasTxt text
  if 0 < loaded.length then loaded else current

/-- The well-formedness of one case required for an exact round trip. -/
def goodCase (m : MaletaItem) : Prop :=
  (m.masterRfid ≠ "" ∧ strTrim m.masterRfid = m.masterRfid ∧ '\n' ∉ m.masterRfid.data) ∧
    ∀ p ∈ m.productRfids, p ≠ "" ∧ strTrim p = p ∧ '\n' ∉ p.data ∧
      strStartsWith p "#" = false ∧ strStartsWith p maestroMarker = false


/-! ## Event ingestion channel: merged connected signal

Source: `connectRealtime` / `disconnectRealtime`.  The transport
callbacks are modelled as the events of a small step machine over the
channel state: whether the `EventSource` is currently open (its
`readyState` equals `OPEN`), whether the `WebSocket` is currently open,
and the merged `sseConnected` signal.  An SSE error leaves the
`EventSource` out of the `OPEN` state, and a WebSocket close or error
leaves the socket closed. -/

structure RealtimeState where
  sseOpen : Bool
  wsOpen : Bool
  sseConnected : Bool
  deriving Repr, DecidableEq

/-- The state right after `connectRealtime` has constructed both
transports: neither has reported open yet and the preceding
`disconnectRealtime` call has forced the signal to false. -/
def realtimeInit : RealtimeState :=
  { sseOpen := false, wsOpen := false, sseConnected := false }

inductive TransportEvent where
  | sseOpenEv
  | sseErrorEv
  | wsOpenEv
  | wsCloseEv
  | wsErrorEv
  deriving Repr, DecidableEq

/-- One transport callback.  The signal updates are the bodies of the
`onopen`/`onerror`/`onclose` handlers installed by `connectRealtime`:
both `onopen` handlers set the signal true, the SSE `onerror` handler
sets it false unconditionally, and the WebSocket `onclose`/`onerror`
handlers set it false only when the `EventSource` is not in the `OPEN`
state. -/
def realtimeStep (s : RealtimeState) : TransportEvent → RealtimeState
  | .sseOpenEv => { s with sseOpen := true, sseConnected := true }
  | .sseErrorEv => { s with sseOpen := false, sseConnected := false }
  | .wsOpenEv => { s with wsOpen := true, sseConnected := true }
  | .wsCloseEv =>
    { s with wsOpen := false,
             sseConnected := if s.sseOpen then s.sseConnected else false }
  | .wsErrorEv =>
    { s with wsOpen := false,
             sseConnected := if s.sseOpen then s.sseConnected else false }

/-- Run the channel from the freshly connected state through a sequence
of transport callbacks. -/
def runRealtime (evs : List TransportEvent) : RealtimeState :=
  evs.foldl realtimeStep realtimeInit

/-! ## Tag identifier extractor

Source: `extractTagId` and `extractAllTagIds`.  Decoded payloads are
modelled by a generic JSON value type mirroring what `JSON.parse` can
produce (the numeric payload carries no information the extractor ever
reads, so an integer suffices). -/

inductive Json where
  | null
  | bool (b : Bool)
  | num (n : Int)
  | str (s : String)
  | arr (xs : List Json)
  | obj (fields : List (String × Json))

/-- JavaScript truthiness of a decoded value (`if (x)` on an object
field). -/
def jsTruthy : Json → Bool
  | .null => false
  | .bool b => b
  | .num n => n != 0
  | .str s => s ≠ ""
  | .arr _ => true
  | .obj _ => true

/-- `if (id) return id;` on a `string | null` result: an empty string is
falsy and is not returned. -/
def keepTruthy : Option String → Option String
  | some id => if id = "" then none else some id
  | none => none

/-- `d[key]` on a keyed map (JSON objects have unique keys, so the first
binding is the binding). -/
def lookupField : List (String × Json) → String → Option Json
  | [], _ => none
  | (k0, v) :: fs, k => if k0 == k then some v else lookupField fs k

/-- The regular expression `/^[0-9A-Fa-f\-]+$/` of the source. -/
def isHexHyphenChar (c : Char) : Bool :=
  ('0' ≤ c && c ≤ '9') || ('A' ≤ c && c ≤ 'F') || ('a' ≤ c && c ≤ 'f') || c = '-'

def isHexHyphen (s : String) : Bool :=
  !s.data.isEmpty && s.data.all isHexHyphenChar

/-- The fixed priority list of key names checked first on a keyed map. -/
def preferidos : List String := ["epc", "tagId", "tag_id", "id", "tagEPC", "EPC"]

/-- The priority-key loop: the first listed key holding a string with a
non-empty trim wins immediately. -/
def findPreferred (fields : List (String × Json)) : List String → Option String
  | [] => none
  | k :: ks =>
    match lookupField fields k with
    | some (.str v) => if strTrim v ≠ "" then some (strTrim v) else findPreferred fields ks
    | _ => findPreferred fields ks

theorem sizeOf_lookupField {fields : List (String × Json)} {k : String} {v : Json}
    (h : lookupField fields k = some v) : sizeOf v < sizeOf fields := by
  induction fields with
  | nil => simp [lookupField] at h
  | cons p rest ih =>
    rcases p with ⟨a, b⟩
    rw [lookupField] at h
    by_cases hk : (a == k) = true
    · rw [if_pos hk] at h
      cases h
      simp
      omega
    · rw [if_neg hk] at h
      have := ih h
      simp
      omega

mutual

/-- `extractTagId`: recursive, schema-agnostic extraction of a single tag
identifier from a decoded payload. -/
def extractTagId : Json → Option String
  | .null => none
  | .bool _ => none
  | .num _ => none
  | .str s =>
    let t := strTrim s
    if 6 ≤ t.length && isHexHyphen t then some t
    else if 0 < t.length then some t
    else none
  | .arr xs => extractTagIdList xs
  | .obj fields =>
    match findPreferred fields preferidos with
    | some id => some id
    | none => objTagStep fields
termination_by j => (sizeOf j, 0)
decreasing_by
  all_goals simp_wf
  all_goals apply Prod.Lex.left
  all_goals try simp
  all_goals omega

/-- The `d['tag']` step of the keyed-map branch. -/
def objTagStep (fields : List (String × Json)) : Option String :=
  match h : lookupField fields "tag" with
  | some tv =>
    (match (if jsTruthy tv then keepTruthy (extractTagId tv) else none) with
     | some id => some id
     | none => objTagsStep fields)
  | none => objTagsStep fields
termination_by (sizeOf fields, 3)
decreasing_by
  all_goals simp_wf
  · apply Prod.Lex.left
    exact sizeOf_lookupField h
  all_goals apply Prod.Lex.right
  all_goals omega

/-- The `d['tags']` array step of the keyed-map branch. -/
def objTagsStep (fields : List (String × Json)) : Option String :=
  match h : lookupField fields "tags" with
  | some (.arr ts) =>
    (match extractTagIdList ts with
     | some id => some id
     | none => objDataStep fields)
  | _ => objDataStep fields
termination_by (sizeOf fields, 2)
decreasing_by
  all_goals simp_wf
  · apply Prod.Lex.left
    have := sizeOf_lookupField h
    simp at this
    omega
  all_goals apply Prod.Lex.right
  all_goals omega

/-- The `d['data']` step of the keyed-map branch. -/
def objDataStep (fields : List (String × Json)) : Option String :=
  match h : lookupField fields "data" with
  | some dv =>
    (match (if jsTruthy dv then keepTruthy (extractTagId dv) else none) with
     | some id => some id
     | none => extractValues fields)
  | none => extractValues fields
termination_by (sizeOf fields, 1)
decreasing_by
  all_goals simp_wf
  · apply Prod.Lex.left
    exact sizeOf_lookupField h
  all_goals apply Prod.Lex.right
  all_goals omega

/-- The final fallback: scan every value of the map in enumeration order
(`Object.values`). -/
def extractValues : List (String × Json) → Option String
  | [] => none
  | (_, v) :: fs =>
    match keepTruthy (extractTagId v) with
    | some id => some id
    | none => extractValues fs
termination_by fs => (sizeOf fs, 0)
decreasing_by
  all_goals simp_wf
  all_goals apply Prod.Lex.left
  all_goals try simp
  all_goals omega

/-- Scanning an ordered sequence: the first element whose recursive
extraction is truthy wins. -/
def extractTagIdList : List Json → Option String
  | [] => none
  | j :: js =>
    match keepTruthy (extractTagId j) with
    | some id => some id
    | none => extractTagIdList js
termination_by js => (sizeOf js, 0)
decreasing_by
  all_goals simp_wf
  all_goals apply Prod.Lex.left
  all_goals try simp
  all_goals omega

end

/-- One `add` call of `extractAllTagIds`: the candidate is appended when
it is a truthy string of length at least 4 that the local deduplication
set has not seen.  The state is the pair (seen set, output list). -/
def addTagStep (st : List String × List String) (cand : Option String) :
    List String × List String :=
  match cand with
  | some id =>
    if id ≠ "" && 4 ≤ id.length && !st.1.contains id then (id :: st.1, st.2 ++ [id])
    else st
  | none => st

/-- `extractAllTagIds`: the single whole-payload extraction first, then —
only when the payload is a keyed map with a `tags` array — one extraction
per array element, deduplicated. -/
def extractAllTagIds (data : Json) : List String :=
  let st1 := addTagStep ([], []) (extractTagId data)
  let st2 :=
    match data with
    | .obj fields =>
      match lookupField fields "tags" with
      | some (.arr ts) => ts.foldl (fun st t => addTagStep st (extractTagId t)) st1
      | _ => st1
    | _ => st1
  st2.2

/-! ## Read aggregator

Source: `processEvent`, `clearEvents`, `clearTags` and the surrounding
fields.  Timestamps (`new Date().toLocaleTimeString(...)`) are opaque
inputs of the handler; the `JSON.parse`-with-fallback decode step is a
host primitive that turns every raw message into exactly one decoded
payload, so the handler is modelled on the decoded payload.  The
`Map<string, TagCount>` is embedded as an association list in insertion
order with at most one entry per id, exactly the map's iteration
contract. -/

structure TagCount where
  id : String
  count : Nat
  lastSeen : String

structure EventLogEntry where
  time : String
  data : Json

structure AggState where
  events : List EventLogEntry
  eventsReceived : Nat
  tagCounts : List TagCount
  totalReads : Nat

/-- The component's initial aggregator state. -/
def initAgg : AggState :=
  { events := [], eventsReceived := 0, tagCounts := [], totalReads := 0 }

/-- The `maxEvents` cap of the event log. -/
def maxEvents : Nat := 200

/-- `tagCounts.get(id)` followed by the increment-or-create update: the
existing record's count and lastSeen are mutated in place, otherwise a
new record is appended (a `Map.set` of a fresh key appends in iteration
order). -/
def updateTag : List TagCount → String → String → List TagCount
  | [], id, now => [{ id := id, count := 1, lastSeen := now }]
  | r :: rs, id, now =>
    if r.id == id then { r with count := r.count + 1, lastSeen := now } :: rs
    else r :: updateTag rs id now

/-- The body of `processEvent`'s per-id loop: increment the global
`totalReads` and update the count table. -/
def recordTag (now : String) (s : AggState) (tagId : String) : AggState :=
  { s with totalReads := s.totalReads + 1,
           tagCounts := updateTag s.tagCounts tagId now }

/-- `processEvent` on an already-decoded payload: count the message,
prepend the log entry, evict the tail beyond the cap, then record every
extracted tag id. -/
def processEvent (st : AggState) (now : String) (data : Json) : AggState :=
  let events0 := { time := now, data := data : EventLogEntry } :: st.events
  let events1 := if maxEvents < events0.length then events0.dropLast else events0
  let tagIds := extractAllTagIds data
  tagIds.foldl (recordTag now)
    { st with events := events1, eventsReceived := st.eventsReceived + 1 }

/-- `clearEvents`. -/
def clearEvents (st : AggState) : AggState :=
  { st with events := [] }

/-- `clearTags`: resets the count table and the total-read counter
together. -/
def clearTags (st : AggState) : AggState :=
  { st with tagCounts := [], totalReads := 0 }

/-- Feed a sequence of (timestamp, decoded payload) messages through the
handler. -/
def feedEvents (st : AggState) (msgs : List (String × Json)) : AggState :=
  msgs.foldl (fun s p => processEvent s p.1 p.2) st

/-- Look a tag id up in the count table. -/
def findTag (l : List TagCount) (id : String) : Option TagCount :=
  l.find? (fun r => r.id == id)

/-- The operations touching the aggregator state that the invariant claim
ranges over. -/
inductive AggOp where
  | msg (now : String) (data : Json)
  | clearTagsOp
  | clearEventsOp

def applyAggOp (st : AggState) : AggOp → AggState
  | .msg now data => processEvent st now data
  | .clearTagsOp => clearTags st
  | .clearEventsOp => clearEvents st

/-- Run a sequence of aggregator operations from the initial state. -/
def runAggOps (ops : List AggOp) : AggState :=
  ops.foldl applyAggOp initAgg

/-! ## Concrete inputs used by counterexamples and witnesses -/

/-- A case collection whose single product tag starts with the comment
marker: its export line is dropped as a comment on re-import. -/
def badRoundTripMaletas : List MaletaItem :=
  [{ id := "id0", masterRfid := "ABCD", productRfids := ["#X"], createdAt := "" }]

/-- A well-formed two-case collection for the round-trip witness. -/
def goodRoundTripMaletas : List MaletaItem :=
  [{ id := "id0", masterRfid := "ABCD-1", productRfids := ["P1P1", "P2P2"], createdAt := "" },
   { id := "id1", masterRfid := "EF01", productRfids := [], createdAt := "" }]

/-- The worked extractor example of the claim. -/
def exampleExtractPayload : Json :=
  .obj [("epc", .str "AAAA1111"),
        ("tags", .arr [.obj [("id", .str "AAAA1111")], .obj [("id", .str "BBBB2222")]])]

/-! # Theorems -/

/-! ## C1: merged connected signal of the two transports -/

theorem realtime_inv (evs : List TransportEvent) :
    ∀ s : RealtimeState, (s.sseOpen = true → s.sseConnected = true) →
      ((evs.foldl realtimeStep s).sseOpen = true →
        (evs.foldl realtimeStep s).sseConnected = true) := by
  induction evs with
  | nil => intro s h; exact h
  | cons e rest ih =>
    intro s h
    rw [List.foldl_cons]
    apply ih
    cases e <;> simp [realtimeStep] <;> (intro h1; exact ⟨h1, h h1⟩)

/-- C1 counterexample: the claim's invariant "in every reachable state in
which at least one transport is open, the connected signal is true" is
false: after the WebSocket opens and the SSE transport then errors, the
WebSocket is still open but the SSE error handler has unconditionally
forced the merged signal to false. -/
theorem C1_counterexample :
    ¬ (∀ evs : List TransportEvent,
        ((runRealtime evs).sseOpen = true ∨ (runRealtime evs).wsOpen = true) →
        (runRealtime evs).sseConnected = true) := by
  intro h
  have hcontra := h [.wsOpenEv, .sseErrorEv] (Or.inr (by decide))
  exact absurd hcontra (by decide)

/-- C1 (amended): the merged signal becomes true whenever either
transport's open callback fires; the WebSocket's close and error
callbacks leave the signal unchanged while the SSE transport is open
(they downgrade only when it is not); but the SSE error callback
downgrades unconditionally, so the invariant that holds in every
reachable state is: whenever the SSE transport is open, the merged
signal is true. -/
theorem C1_amended :
    (∀ evs : List TransportEvent,
      (runRealtime evs).sseOpen = true → (runRealtime evs).sseConnected = true)
    ∧ (∀ s : RealtimeState,
        (realtimeStep s .sseOpenEv).sseConnected = true ∧
        (realtimeStep s .wsOpenEv).sseConnected = true)
    ∧ (∀ s : RealtimeState, s.sseOpen = true →
        (realtimeStep s .wsCloseEv).sseConnected = s.sseConnected ∧
        (realtimeStep s .wsErrorEv).sseConnected = s.sseConnected) := by
  refine ⟨fun evs => realtime_inv evs realtimeInit (by decide), ?_, ?_⟩
  · intro s
    exact ⟨rfl, rfl⟩
  · intro s h
    constructor <;> simp [realtimeStep, h]

/-- Witness for C1 (amended) at a concrete trace and state. -/
theorem C1_amended_witness :
    (runRealtime [TransportEvent.sseOpenEv]).sseConnected = true ∧
    (realtimeStep { sseOpen := true, wsOpen := true, sseConnected := true }
        .wsCloseEv).sseConnected = true :=
  ⟨C1_amended.1 [TransportEvent.sseOpenEv] (by decide),
   (C1_amended.2.2 { sseOpen := true, wsOpen := true, sseConnected := true } rfl).1⟩

/-! ## Aggregator lemmas -/

theorem recordTag_foldl_events (ids : List String) (now : String) :
    ∀ s : AggState, (ids.foldl (recordTag now) s).events = s.events := by
  induction ids with
  | nil => intro s; rfl
  | cons i rest ih => intro s; rw [List.foldl_cons]; exact ih _

theorem recordTag_foldl_eventsReceived (ids : List String) (now : String) :
    ∀ s : AggState, (ids.foldl (recordTag now) s).eventsReceived = s.eventsReceived := by
  induction ids with
  | nil => intro s; rfl
  | cons i rest ih => intro s; rw [List.foldl_cons]; exact ih _

theorem recordTag_foldl_totalReads (ids : List String) (now : String) :
    ∀ s : AggState, (ids.foldl (recordTag now) s).totalReads = s.totalReads + ids.length := by
  induction ids with
  | nil => intro s; rfl
  | cons i rest ih =>
    intro s
    rw [List.foldl_cons, ih]
    simp [recordTag]
    omega

theorem recordTag_foldl_tagCounts (ids : List String) (now : String) :
    ∀ s : AggState,
      (ids.foldl (recordTag now) s).tagCounts =
        ids.foldl (fun tc i => updateTag tc i now) s.tagCounts := by
  induction ids with
  | nil => intro s; rfl
  | cons i rest ih => intro s; rw [List.foldl_cons, List.foldl_cons, ih]; rfl

theorem processEvent_events (st : AggState) (now : String) (data : Json) :
    (processEvent st now data).events =
      (if maxEvents < st.events.length + 1 then
        ({ time := now, data := data : EventLogEntry } :: st.events).dropLast
      else { time := now, data := data : EventLogEntry } :: st.events) := by
  rw [processEvent, recordTag_foldl_events]
  simp

theorem processEvent_totalReads (st : AggState) (now : String) (data : Json) :
    (processEvent st now data).totalReads =
      st.totalReads + (extractAllTagIds data).length := by
  rw [processEvent, recordTag_foldl_totalReads]

theorem processEvent_tagCounts (st : AggState) (now : String) (data : Json) :
    (processEvent st now data).tagCounts =
      (extractAllTagIds data).foldl (fun tc i => updateTag tc i now) st.tagCounts := by
  rw [processEvent, recordTag_foldl_tagCounts]

theorem feedEvents_log (l : List (String × Json)) :
    (feedEvents initAgg l).events =
      ((l.map (fun p => { time := p.1, data := p.2 : EventLogEntry })).reverse).take
        maxEvents := by
  have hme : maxEvents = 200 := rfl
  induction l using List.reverseRecOn with
  | nil => rfl
  | append_singleton l e ih =>
    rw [feedEvents] at ih ⊢
    rw [List.foldl_append, List.foldl_cons, List.foldl_nil, processEvent_events, ih]
    rcases e with ⟨now, data⟩
    simp only [List.map_append, List.map_cons, List.map_nil, List.reverse_append,
      List.reverse_cons, List.reverse_nil, List.nil_append, List.cons_append,
      List.length_take, List.length_reverse, List.length_map]
    by_cases hlen : l.length < maxEvents
    · rw [if_neg (by omega), List.take_all_of_le (by simp; omega),
        List.take_all_of_le (by simp; omega)]
    · rw [if_pos (by omega), List.dropLast_eq_take]
      have h1 : maxEvents = (maxEvents - 1) + 1 := by omega
      simp only [List.length_cons, List.length_take, List.length_reverse,
        List.length_map, Nat.add_sub_cancel]
      rw [h1]
      have h2 : (maxEvents - 1 + 1) ⊓ l.length = maxEvents - 1 + 1 := by omega
      rw [h2, List.take_succ_cons, List.take_take]
      congr 2
      try omega

/-- C8: each `processEvent` call prepends exactly one entry (the new
entry is the head), evicts exactly one tail entry precisely when the log
would exceed 200, keeps the log at 200 or fewer entries, and feeding 201
events into the empty aggregator leaves exactly the 200 newest entries,
newest first, with the first-fed event dropped. -/
theorem C8_eventLog :
    (∀ (st : AggState) (now : String) (data : Json),
      (processEvent st now data).events.head? =
          some { time := now, data := data } ∧
      (processEvent st now data).events.length =
          (if maxEvents ≤ st.events.length then st.events.length
           else st.events.length + 1) ∧
      (st.events.length ≤ maxEvents → (processEvent st now data).events.length ≤ maxEvents))
    ∧ (∀ l : List (String × Json), l.length = 201 →
        (feedEvents initAgg l).events.length = 200 ∧
        (feedEvents initAgg l).events =
          ((l.drop 1).map (fun p => { time := p.1, data := p.2 })).reverse) := by
  have hme : maxEvents = 200 := rfl
  constructor
  · intro st now data
    rw [processEvent_events]
    refine ⟨?_, ?_, ?_⟩
    · by_cases hlen : maxEvents < st.events.length + 1
      · rw [if_pos hlen]
        rcases hst : st.events with _ | ⟨x, xs⟩
        · rw [hst] at hlen; simp at hlen; omega
        · simp
      · rw [if_neg hlen]
        simp
    · by_cases hlen : maxEvents < st.events.length + 1
      · rw [if_pos hlen]
        simp
        split <;> omega
      · rw [if_neg hlen]
        simp
        split <;> omega
    · intro hle
      by_cases hlen : maxEvents < st.events.length + 1
      · rw [if_pos hlen]
        simp
        omega
      · rw [if_neg hlen]
        simp
        omega
  · intro l hl
    have hev := feedEvents_log l
    have htake : ((l.map (fun p => { time := p.1, data := p.2 : EventLogEntry })).reverse).take
        maxEvents = ((l.drop 1).map (fun p => { time := p.1, data := p.2 })).reverse := by
      have hlen2 : (l.map (fun p => { time := p.1, data := p.2 : EventLogEntry })).length -
          maxEvents = 1 := by simp [hl, hme]
      rw [List.take_reverse, List.map_drop, hlen2]
    rw [hev, htake]
    constructor
    · simp [hl]
    · rfl

/-- Witness for C8 at concrete inputs (a single call on the empty state,
and a 201-message feed). -/
theorem C8_eventLog_witness :
    (processEvent initAgg "t" Json.null).events.length ≤ maxEvents ∧
    (feedEvents initAgg (List.replicate 201 ("t", Json.null))).events.length = 200 :=
  ⟨(C8_eventLog.1 initAgg "t" Json.null).2.2 (by simp [initAgg]),
   (C8_eventLog.2 (List.replicate 201 ("t", Json.null))
     (List.length_replicate 201 ("t", Json.null))).1⟩

theorem findTag_updateTag_none (l : List TagCount) (id now : String)
    (h : findTag l id = none) :
    findTag (updateTag l id now) id = some { id := id, count := 1, lastSeen := now } := by
  induction l with
  | nil => simp [findTag, updateTag, List.find?]
  | cons r rs ih =>
    by_cases hr : (r.id == id) = true
    · exfalso
      rw [findTag, @List.find?_cons_of_pos _ (fun x => x.id == id) r rs hr] at h
      exact Option.some_ne_none r h
    · rw [findTag, @List.find?_cons_of_neg _ (fun x => x.id == id) r rs hr] at h
      rw [updateTag, if_neg hr, findTag, @List.find?_cons_of_neg _ (fun x => x.id == id) r (updateTag rs id now) hr]
      exact ih h

theorem findTag_updateTag_some (l : List TagCount) (id now : String) (r0 : TagCount)
    (h : findTag l id = some r0) :
    findTag (updateTag l id now) id =
      some { id := r0.id, count := r0.count + 1, lastSeen := now } := by
  induction l with
  | nil => simp [findTag, List.find?] at h
  | cons r rs ih =>
    by_cases hr : (r.id == id) = true
    · rw [findTag, @List.find?_cons_of_pos _ (fun x => x.id == id) r rs hr] at h
      injection h with h2
      subst h2
      rw [updateTag, if_pos hr, findTag]
      exact @List.find?_cons_of_pos _ (fun x => x.id == id)
        ({ r with count := r.count + 1, lastSeen := now } : TagCount) rs hr
    · rw [findTag, @List.find?_cons_of_neg _ (fun x => x.id == id) r rs hr] at h
      rw [updateTag, if_neg hr, findTag, @List.find?_cons_of_neg _ (fun x => x.id == id) r (updateTag rs id now) hr]
      exact ih h

theorem findTag_id (l : List TagCount) (id : String) (r0 : TagCount)
    (h : findTag l id = some r0) : r0.id = id := by
  have := List.find?_some h
  exact eq_of_beq this

/-- Feeding messages whose extracted id sequence is exactly `[t]` on top
of an existing record for `t`: the count grows by the number of messages
and lastSeen tracks the last timestamp. -/
theorem feed_single_tag (msgs : List (String × Json)) :
    ∀ (st : AggState) (t : String) (c : Nat) (s0 : String),
      (∀ p ∈ msgs, extractAllTagIds p.2 = [t]) →
      findTag st.tagCounts t = some { id := t, count := c, lastSeen := s0 } →
      findTag (feedEvents st msgs).tagCounts t =
          some { id := t, count := c + msgs.length,
                 lastSeen := (msgs.map Prod.fst).getLastD s0 } ∧
        (feedEvents st msgs).totalReads = st.totalReads + msgs.length := by
  induction msgs with
  | nil =>
    intro st t c s0 _ hfind
    simpa [feedEvents] using hfind
  | cons p rest ih =>
    intro st t c s0 hall hfind
    rcases p with ⟨now, data⟩
    have hid : extractAllTagIds data = [t] := hall (now, data) (List.mem_cons_self _ _)
    have hrest : ∀ q ∈ rest, extractAllTagIds q.2 = [t] := fun q hq => hall q (by simp [hq])
    have hstep : feedEvents st ((now, data) :: rest) =
        feedEvents (processEvent st now data) rest := rfl
    rw [hstep]
    have htc : (processEvent st now data).tagCounts = updateTag st.tagCounts t now := by
      rw [processEvent_tagCounts, hid]
      rfl
    have hfind2 : findTag (processEvent st now data).tagCounts t =
        some { id := t, count := c + 1, lastSeen := now } := by
      rw [htc]
      have := findTag_updateTag_some st.tagCounts t now _ hfind
      simpa using this
    have htr : (processEvent st now data).totalReads = st.totalReads + 1 := by
      rw [processEvent_totalReads, hid]
      simp
    have hrec := ih (processEvent st now data) t (c + 1) now hrest hfind2
    have hcnt : c + 1 + rest.length = c + (rest.length + 1) := by omega
    rw [hcnt] at hrec
    refine ⟨?_, ?_⟩
    · rw [List.map_cons, List.getLastD_cons]
      exact hrec.1
    · rw [hrec.2, htr, List.length_cons]
      omega

/-- C9: feeding N ≥ 1 messages whose extracted id sequence is exactly
`[t]`, starting from a state with no record for `t`, creates the record
on the first message with count 1 and then increments it on each
subsequent one: the final record has count N and lastSeen equal to the
last feed's timestamp, and totalReads grows by N (one per extracted
id). -/
theorem C9_tagCounting (m : String × Json) (rest : List (String × Json))
    (st : AggState) (t : String)
    (hall : ∀ p ∈ m :: rest, extractAllTagIds p.2 = [t])
    (hnone : findTag st.tagCounts t = none) :
    findTag (feedEvents st (m :: rest)).tagCounts t =
        some { id := t, count := (m :: rest).length,
               lastSeen := ((m :: rest).map Prod.fst).getLastD "" } ∧
      (feedEvents st (m :: rest)).totalReads = st.totalReads + (m :: rest).length := by
  rcases m with ⟨now, data⟩
  have hid : extractAllTagIds data = [t] := hall (now, data) (List.mem_cons_self _ _)
  have hrest : ∀ q ∈ rest, extractAllTagIds q.2 = [t] := fun q hq => hall q (by simp [hq])
  have hstep : feedEvents st ((now, data) :: rest) =
      feedEvents (processEvent st now data) rest := rfl
  rw [hstep]
  have hfind1 : findTag (processEvent st now data).tagCounts t =
      some { id := t, count := 1, lastSeen := now } := by
    rw [processEvent_tagCounts, hid]
    exact findTag_updateTag_none st.tagCounts t now hnone
  have htr : (processEvent st now data).totalReads = st.totalReads + 1 := by
    rw [processEvent_totalReads, hid]
    simp
  have hrec := feed_single_tag rest (processEvent st now data) t 1 now hrest hfind1
  refine ⟨?_, ?_⟩
  · rw [List.map_cons, List.getLastD_cons, List.length_cons]
    rw [hrec.1]
    have : 1 + rest.length = rest.length + 1 := by omega
    rw [this]
  · rw [hrec.2, htr, List.length_cons]
    omega

/-- Witness for C9: two messages carrying the bare string payload
`"ABCD"` yield a record with count 2 and lastSeen the second
timestamp. -/
theorem C9_tagCounting_witness :
    findTag (feedEvents initAgg [("t1", .str "ABCD"), ("t2", .str "ABCD")]).tagCounts
        "ABCD" = some { id := "ABCD", count := 2, lastSeen := "t2" } ∧
      (feedEvents initAgg [("t1", .str "ABCD"), ("t2", .str "ABCD")]).totalReads =
        initAgg.totalReads + 2 := by
  have hext : extractAllTagIds (.str "ABCD") = ["ABCD"] := by
    simp [extractAllTagIds, extractTagId, strTrim, trimChars, addTagStep, isHexHyphen]
    decide
  have h := C9_tagCounting ("t1", .str "ABCD") [("t2", .str "ABCD")] initAgg "ABCD"
    (by
      intro p hp
      simp only [List.mem_cons, List.mem_singleton, List.not_mem_nil, or_false] at hp
      rcases hp with rfl | rfl <;> exact hext)
    (by rfl)
  simpa using h

theorem updateTag_sum (l : List TagCount) (id now : String) :
    ((updateTag l id now).map (fun r => r.count)).sum =
      (l.map (fun r => r.count)).sum + 1 := by
  induction l with
  | nil => simp [updateTag]
  | cons r rs ih =>
    rw [updateTag]
    by_cases hr : (r.id == id) = true
    · rw [if_pos hr]
      simp
      omega
    · rw [if_neg hr]
      simp [ih]
      omega

theorem updateTag_foldl_sum (ids : List String) (now : String) :
    ∀ tc : List TagCount,
      ((ids.foldl (fun tc i => updateTag tc i now) tc).map (fun r => r.count)).sum =
        (tc.map (fun r => r.count)).sum + ids.length := by
  induction ids with
  | nil => intro tc; simp
  | cons i rest ih =>
    intro tc
    rw [List.foldl_cons, ih, updateTag_sum, List.length_cons]
    omega

/-- C10: after any sequence of `processEvent`, `clearTags` and
`clearEvents` operations from the initial state, the global `totalReads`
counter equals the sum of the per-tag counts: `processEvent` adds one to
both sides per extracted id, `clearTags` resets both together, and
`clearEvents` touches neither. -/
theorem C10_totalReads_sum (ops : List AggOp) :
    (runAggOps ops).totalReads =
      ((runAggOps ops).tagCounts.map (fun r => r.count)).sum := by
  suffices h : ∀ (l : List AggOp) (st : AggState),
      st.totalReads = (st.tagCounts.map (fun r => r.count)).sum →
      (l.foldl applyAggOp st).totalReads =
        ((l.foldl applyAggOp st).tagCounts.map (fun r => r.count)).sum by
    exact h ops initAgg rfl
  intro l
  induction l with
  | nil => intro st h; exact h
  | cons op rest ih =>
    intro st h
    rw [List.foldl_cons]
    apply ih
    cases op with
    | msg now data =>
      rw [applyAggOp, processEvent_totalReads, processEvent_tagCounts,
        updateTag_foldl_sum, h]
    | clearTagsOp => rfl
    | clearEventsOp => exact h


/-! ## Reconciliation-engine lemmas -/

theorem str_ne_empty_iff (s : String) : (s ≠ "") ↔ 0 < s.length := by
  rw [String.length]
  cases s with
  | mk data => cases data <;> simp [String.ext_iff]

theorem contains_iff_mem (l : List String) (a : String) : l.contains a ↔ a ∈ l := by
  induction l with
  | nil => simp [List.contains]
  | cons x xs ih => simp [List.contains] at ih ⊢

theorem missing_pos_iff (reads : List String) (L : List String) :
    (0 < (((L.map strTrim).filter (fun s => 0 < s.length)).filter
        (fun e => !reads.contains e)).length) ↔
      ∃ t ∈ L, strTrim t ≠ "" ∧ strTrim t ∉ reads := by
  rw [List.length_pos_iff_exists_mem]
  constructor
  · rintro ⟨x, hx⟩
    rw [List.mem_filter] at hx
    rcases hx with ⟨hx1, hx2⟩
    rw [List.mem_filter] at hx1
    rcases hx1 with ⟨hmap, hpos⟩
    rcases List.mem_map.mp hmap with ⟨t, ht, rfl⟩
    refine ⟨t, ht, ?_, ?_⟩
    · rw [str_ne_empty_iff]
      simpa using hpos
    · simpa [contains_iff_mem] using hx2
  · rintro ⟨t, ht, hne, hnm⟩
    refine ⟨strTrim t, ?_⟩
    rw [List.mem_filter]
    refine ⟨?_, by simpa [contains_iff_mem] using hnm⟩
    rw [List.mem_filter]
    refine ⟨List.mem_map.mpr ⟨t, ht, rfl⟩, ?_⟩
    simpa using (str_ne_empty_iff _).mp hne

theorem status_red_iff (reads : List String) (m : MaletaItem) :
    getMaletaStatus reads m = .red ↔ m.expiredProductRfids.getD [] ≠ [] := by
  rw [getMaletaStatus]
  rcases hexp : m.expiredProductRfids.getD [] with _ | ⟨e, es⟩ <;> simp <;> split <;> simp

theorem status_blue_iff (reads : List String) (m : MaletaItem)
    (hexp : m.expiredProductRfids.getD [] = []) :
    getMaletaStatus reads m = .blue ↔
      ∃ t ∈ m.masterRfid :: m.productRfids, strTrim t ≠ "" ∧ strTrim t ∉ reads := by
  rw [getMaletaStatus, hexp, ← missing_pos_iff reads]
  simp only [List.length_nil, Nat.lt_irrefl, if_false]
  split
  · next hc => exact iff_of_true rfl hc
  · next hc => exact iff_of_false (by simp) hc

theorem status_green_iff (reads : List String) (m : MaletaItem)
    (hexp : m.expiredProductRfids.getD [] = []) :
    getMaletaStatus reads m = .green ↔
      ∀ t ∈ m.masterRfid :: m.productRfids, strTrim t ≠ "" → strTrim t ∈ reads := by
  have hpush : (∀ t ∈ m.masterRfid :: m.productRfids, strTrim t ≠ "" → strTrim t ∈ reads) ↔
      ¬ ∃ t ∈ m.masterRfid :: m.productRfids, strTrim t ≠ "" ∧ strTrim t ∉ reads := by
    push_neg
    rfl
  rw [hpush, getMaletaStatus, hexp, ← missing_pos_iff reads]
  simp only [List.length_nil, Nat.lt_irrefl, if_false]
  split
  · next hc => exact iff_of_false (by simp) (fun hn => hn hc)
  · next hc => exact iff_of_true rfl hc

/-- C3: the per-case status follows the claimed precedence: red exactly
when the expired set is non-empty (regardless of the reads); otherwise
blue exactly when some tag among the trimmed master and product tags
(empty strings excluded) is missing from the read set, and green exactly
when every such tag was read.  Membership is per distinct trimmed tag, so
a duplicated expected entry (including the master repeated as a product
tag) needs only a single matching read. -/
theorem C3_maletaStatus (reads : List String) (m : MaletaItem) :
    (getMaletaStatus reads m = .red ↔ m.expiredProductRfids.getD [] ≠ []) ∧
      (m.expiredProductRfids.getD [] = [] →
        ((getMaletaStatus reads m = .blue ↔
            ∃ t ∈ m.masterRfid :: m.productRfids, strTrim t ≠ "" ∧ strTrim t ∉ reads) ∧
          (getMaletaStatus reads m = .green ↔
            ∀ t ∈ m.masterRfid :: m.productRfids, strTrim t ≠ "" → strTrim t ∈ reads))) :=
  ⟨status_red_iff reads m,
   fun hexp => ⟨status_blue_iff reads m hexp, status_green_iff reads m hexp⟩⟩

/-- Witness for C3 at a concrete case: master also duplicated as a
product tag, and only the single read of it plus the other product. -/
theorem C3_maletaStatus_witness :
    getMaletaStatus ["M1M1", "A1A1"]
        { id := "x", masterRfid := "M1M1", productRfids := ["A1A1", "M1M1"],
          createdAt := "" } = .green :=
  ((C3_maletaStatus ["M1M1", "A1A1"]
      { id := "x", masterRfid := "M1M1", productRfids := ["A1A1", "M1M1"],
        createdAt := "" }).2 rfl).2.mpr (by decide)

theorem any_map_general {α β : Type} (l : List α) (f : α → β) (p : β → Bool) :
    (l.map f).any p = l.any (fun a => p (f a)) := by
  induction l with
  | nil => rfl
  | cons x xs ih => simp_all

theorem any_congr_mem {α : Type} (l : List α) (p q : α → Bool)
    (h : ∀ a ∈ l, p a = q a) : l.any p = l.any q := by
  induction l with
  | nil => rfl
  | cons x xs ih => simp_all

theorem status_trichotomy (reads : List String) (m : MaletaItem) :
    getMaletaStatus reads m = .red ∨ getMaletaStatus reads m = .blue ∨
      getMaletaStatus reads m = .green := by
  rw [getMaletaStatus]
  split
  · exact Or.inl rfl
  · dsimp only
    split
    · exact Or.inr (Or.inl rfl)
    · exact Or.inr (Or.inr rfl)

theorem beq_red_eq (reads : List String) (m : MaletaItem) :
    (getMaletaStatus reads m == SemaphoreStatus.red) = specCaseExpired m := by
  by_cases hexp : m.expiredProductRfids.getD [] = []
  · have h1 : getMaletaStatus reads m ≠ .red :=
      fun h => ((status_red_iff reads m).mp h) hexp
    simp [specCaseExpired, hexp, h1]
  · have h1 : getMaletaStatus reads m = .red := (status_red_iff reads m).mpr hexp
    simp [specCaseExpired, hexp, h1]

theorem beq_yellow_eq (reads : List String) (m : MaletaItem) :
    (getMaletaStatus reads m == SemaphoreStatus.yellow) = false := by
  rcases status_trichotomy reads m with h | h | h <;> simp [h]

theorem specCaseIncomplete_iff (reads : List String) (m : MaletaItem) :
    specCaseIncomplete reads m = true ↔
      ∃ t ∈ m.masterRfid :: m.productRfids, strTrim t ≠ "" ∧ strTrim t ∉ reads := by
  simp [specCaseIncomplete, List.any_eq_true, contains_iff_mem]

theorem beq_blue_eq (reads : List String) (m : MaletaItem)
    (h : specCaseExpired m = false) :
    (getMaletaStatus reads m == SemaphoreStatus.blue) = specCaseIncomplete reads m := by
  have hexp : m.expiredProductRfids.getD [] = [] := by
    simpa [specCaseExpired] using h
  by_cases hb : getMaletaStatus reads m = .blue
  · rw [hb]
    have := (specCaseIncomplete_iff reads m).mpr ((status_blue_iff reads m hexp).mp hb)
    simp [this]
  · have hfalse : specCaseIncomplete reads m = false := by
      rw [← Bool.not_eq_true, specCaseIncomplete_iff]
      rw [← status_blue_iff reads m hexp]
      exact hb
    simp [hfalse, hb]

theorem mem_expectedUnion_iff (maletas : List MaletaItem) (r : String) :
    r ∈ getExpectedTagUnion maletas ↔ r ≠ "" ∧ specInExpectedUnion maletas r = true := by
  rw [getExpectedTagUnion]
  rw [List.mem_filter]
  simp only [decide_eq_true_eq]
  rw [and_comm]
  apply and_congr_right
  intro hne
  rw [List.mem_flatMap]
  simp [specInExpectedUnion, List.any_eq_true, contains_iff_mem]
  constructor
  · rintro ⟨m, hm, hr⟩
    rcases hr with hr | hr
    · exact ⟨m, hm, Or.inl hr.symm⟩
    · exact ⟨m, hm, Or.inr hr⟩
  · rintro ⟨m, hm, hr⟩
    rcases hr with hr | hr
    · exact ⟨m, hm, Or.inl hr.symm⟩
    · exact ⟨m, hm, Or.inr hr⟩

theorem hasUnknown_eq (maletas : List MaletaItem) (reads : List String)
    (h : maletas ≠ []) :
    hasUnknownTagRead maletas reads =
      reads.any (fun r => r ≠ "" && !specInExpectedUnion maletas r) := by
  rw [hasUnknownTagRead, if_neg (by simpa [List.isEmpty_iff] using h)]
  apply any_congr_mem
  intro r _
  by_cases hr : r = ""
  · subst hr
    simp
  · have h1 : (decide (0 < r.length)) = true := by
      simp [← str_ne_empty_iff, hr]
    have h2 : decide (r ∈ getExpectedTagUnion maletas) = specInExpectedUnion maletas r := by
      by_cases hin : specInExpectedUnion maletas r = true
      · have : r ∈ getExpectedTagUnion maletas := (mem_expectedUnion_iff maletas r).mpr ⟨hr, hin⟩
        simp [this, hin]
      · have : r ∉ getExpectedTagUnion maletas := by
          rw [mem_expectedUnion_iff]
          rintro ⟨-, hc⟩
          exact hin hc
        simp only [Bool.not_eq_true] at hin
        simp [this, hin]
    simp [h1, h2, hr]

/-- C2: the aggregate status equals the claim's precedence: complete for
zero cases; expired when some case has a non-empty expired set; else
anomalous when some read tag lies outside the union of all cases' trimmed
master and product tags (empty strings ignored); else incomplete when
some case is incomplete; else complete. -/
theorem C2_generalStatus (maletas : List MaletaItem) (reads : List String) :
    generalSemaphoreStatus maletas reads = specGeneralStatus maletas reads := by
  by_cases hmal : maletas = []
  · subst hmal
    rfl
  · rw [generalSemaphoreStatus, specGeneralStatus]
    rw [if_neg (show ¬(maletas.isEmpty = true) by simpa [List.isEmpty_iff] using hmal),
      if_neg hmal]
    dsimp only
    rw [any_map_general, any_map_general, any_map_general]
    have hred : maletas.any (fun m => getMaletaStatus reads m == SemaphoreStatus.red) =
        maletas.any specCaseExpired := by
      apply any_congr_mem
      intro m _
      exact beq_red_eq reads m
    have hyel : maletas.any (fun m => getMaletaStatus reads m == SemaphoreStatus.yellow) =
        false := by
      rw [List.any_eq_false]
      intro m _
      simpa using beq_yellow_eq reads m
    rw [hred, hyel]
    by_cases h1 : maletas.any specCaseExpired
    · rw [if_pos h1, if_pos h1]
    · rw [if_neg h1, if_neg h1]
      rw [hasUnknown_eq _ reads hmal]
      by_cases h2 : reads.any (fun r => r ≠ "" && !specInExpectedUnion maletas r)
      · rw [if_pos h2, if_pos h2]
      · rw [if_neg h2, if_neg h2, if_neg (show ¬(false = true) by simp)]
        have hblue : maletas.any (fun m => getMaletaStatus reads m == SemaphoreStatus.blue) =
            maletas.any (specCaseIncomplete reads) := by
          apply any_congr_mem
          intro m hm
          apply beq_blue_eq reads m
          rw [Bool.not_eq_true, List.any_eq_false] at h1
          simpa using h1 m hm
        rw [hblue]

/-! ## Extractor lemmas -/

/-- C7: on a keyed map whose `epc` key holds a string with non-empty
trim, the extractor returns that value trimmed, whatever else the map
holds: `epc` is the first entry of the priority-key list, checked before
any recursion. -/
theorem C7_epcPriority (fields : List (String × Json)) (v : String)
    (hepc : lookupField fields "epc" = some (.str v))
    (hne : strTrim v ≠ "") :
    extractTagId (.obj fields) = some (strTrim v) := by
  rw [extractTagId]
  have hpref : findPreferred fields preferidos = some (strTrim v) := by
    rw [preferidos, findPreferred, hepc]
    dsimp only
    rw [if_pos hne]
  rw [hpref]

/-- Witness for C7: a map with an untrimmed `epc` value, a competing
priority key, nested structure and an array field. -/
theorem C7_epcPriority_witness :
    extractTagId (.obj [("x", .obj [("id", .str "ZZZZ")]),
        ("epc", .str " AB12 "), ("id", .str "OTHER"),
        ("tags", .arr [.str "CCCC"])]) = some "AB12" := by
  have h := C7_epcPriority [("x", .obj [("id", .str "ZZZZ")]),
      ("epc", .str " AB12 "), ("id", .str "OTHER"),
      ("tags", .arr [.str "CCCC"])] " AB12 "
    (by simp [lookupField]) (by decide)
  simpa using h

/-- The deduplication invariant of `extractAllTagIds`'s fold state: the
output is duplicate-free and every emitted id is in the seen set. -/
theorem addTagStep_inv (st : List String × List String) (cand : Option String)
    (h : st.2.Nodup ∧ ∀ i ∈ st.2, i ∈ st.1) :
    (addTagStep st cand).2.Nodup ∧
      ∀ i ∈ (addTagStep st cand).2, i ∈ (addTagStep st cand).1 := by
  rcases cand with _ | id
  · exact h
  · rw [addTagStep]
    split
    · next hc =>
      simp only [Bool.and_eq_true, Bool.not_eq_true] at hc
      have hnotseen : id ∉ st.1 := by
        have h2 := hc.2
        intro hmem
        rw [(contains_iff_mem st.1 id).mpr hmem] at h2
        simp at h2
      constructor
      · simp [List.nodup_append]
        exact ⟨h.1, fun hm => (hnotseen (h.2 id hm)).elim⟩
      · intro i hi
        simp only [List.mem_append, List.mem_singleton] at hi
        simp only [List.mem_cons]
        rcases hi with hi | hi
        · exact Or.inr (h.2 i hi)
        · exact Or.inl hi
    · exact h

theorem addTagStep_fold_inv (ts : List Json) :
    ∀ st : List String × List String, (st.2.Nodup ∧ ∀ i ∈ st.2, i ∈ st.1) →
      ((ts.foldl (fun st t => addTagStep st (extractTagId t)) st).2.Nodup ∧
        ∀ i ∈ (ts.foldl (fun st t => addTagStep st (extractTagId t)) st).2,
          i ∈ (ts.foldl (fun st t => addTagStep st (extractTagId t)) st).1) := by
  induction ts with
  | nil => intro st h; exact h
  | cons t rest ih =>
    intro st h
    rw [List.foldl_cons]
    exact ih _ (addTagStep_inv st (extractTagId t) h)

theorem addTagStep_len (st : List String × List String) (cand : Option String) :
    (addTagStep st cand).2.length ≤ st.2.length + 1 := by
  rcases cand with _ | id
  · simp [addTagStep]
  · rw [addTagStep]
    split
    · simp
    · simp

theorem addTagStep_fold_len (ts : List Json) :
    ∀ st : List String × List String,
      (ts.foldl (fun st t => addTagStep st (extractTagId t)) st).2.length ≤
        st.2.length + ts.length := by
  induction ts with
  | nil => intro st; simp
  | cons t rest ih =>
    intro st
    rw [List.foldl_cons, List.length_cons]
    calc (rest.foldl (fun st t => addTagStep st (extractTagId t))
            (addTagStep st (extractTagId t))).2.length
        ≤ (addTagStep st (extractTagId t)).2.length + rest.length := ih _
      _ ≤ st.2.length + 1 + rest.length :=
          Nat.add_le_add_right (addTagStep_len st (extractTagId t)) _
      _ = st.2.length + (rest.length + 1) := by omega

theorem addTagStep_head (st : List String × List String) (cand : Option String)
    (h : st.2 ≠ []) :
    (addTagStep st cand).2.head? = st.2.head? ∧ (addTagStep st cand).2 ≠ [] := by
  rcases cand with _ | id
  · exact ⟨rfl, h⟩
  · rw [addTagStep]
    split
    · constructor
      · rcases hst : st.2 with _ | ⟨x, xs⟩
        · exact absurd hst h
        · simp
      · simp
    · exact ⟨rfl, h⟩

theorem addTagStep_fold_head (ts : List Json) :
    ∀ st : List String × List String, st.2 ≠ [] →
      (ts.foldl (fun st t => addTagStep st (extractTagId t)) st).2.head? = st.2.head? := by
  induction ts with
  | nil => intro st _; rfl
  | cons t rest ih =>
    intro st h
    rw [List.foldl_cons]
    have hs := addTagStep_head st (extractTagId t) h
    rw [ih _ hs.2, hs.1]

/-- C6: `extractAllTagIds` is duplicate-free in discovery order, starts
with the whole-payload extraction when that has length at least 4, only
ever appends further ids from a `tags` array field of a keyed map (one
candidate per element), so its length is at most 1 plus the length of
that array (and at most 1 otherwise); and on the worked example it
returns the deduplicated pair. -/
theorem C6_extractAllTagIds :
    (∀ d : Json, (extractAllTagIds d).Nodup) ∧
    (∀ d : Json, (extractAllTagIds d).length ≤ 1 +
      (match d with
       | .obj fields =>
         (match lookupField fields "tags" with
          | some (.arr ts) => ts.length
          | _ => 0)
       | _ => 0)) ∧
    (∀ (d : Json) (id : String), extractTagId d = some id → 4 ≤ id.length →
      (extractAllTagIds d).head? = some id) ∧
    extractAllTagIds exampleExtractPayload = ["AAAA1111", "BBBB2222"] := by
  refine ⟨?_, ?_, ?_, ?_⟩
  · intro d
    have h1 := addTagStep_inv ([], []) (extractTagId d) (by simp)
    rcases d with _ | b | n | s | xs | fields <;>
      simp only [extractAllTagIds] <;>
      try exact h1.1
    rcases hlk : lookupField fields "tags" with _ | v
    · simp only [hlk]
      exact h1.1
    · rcases v with _ | b2 | n2 | s2 | ts | fs2 <;> simp only [hlk] <;>
        first
        | exact h1.1
        | exact (addTagStep_fold_inv ts _ h1).1
  · intro d
    have h1 : (addTagStep ([], []) (extractTagId d)).2.length ≤ 1 := by
      simpa using addTagStep_len ([], []) (extractTagId d)
    rcases d with _ | b | n | s | xs | fields <;>
      simp only [extractAllTagIds] <;>
      try omega
    rcases hlk : lookupField fields "tags" with _ | v
    · simp only [hlk]
      omega
    · rcases v with _ | b2 | n2 | s2 | ts | fs2 <;> simp only [hlk] <;> try omega
      have h2 := addTagStep_fold_len ts (addTagStep ([], []) (extractTagId (.obj fields)))
      omega
  · intro d id hmain hlen
    have hne : id ≠ "" := by
      rw [str_ne_empty_iff]
      omega
    have hst1 : addTagStep ([], []) (extractTagId d) = ([id], [id]) := by
      rw [hmain, addTagStep]
      simp [hne, hlen]
    rcases d with _ | b | n | s | xs | fields <;>
      simp only [extractAllTagIds] <;>
      rw [hst1] <;>
      try rfl
    rcases hlk : lookupField fields "tags" with _ | v
    · simp only [hlk]
      rfl
    · rcases v with _ | b2 | n2 | s2 | ts | fs2 <;> simp only [hlk] <;>
        first
        | rfl
        | exact addTagStep_fold_head ts ([id], [id]) (by simp)
  · rw [exampleExtractPayload]
    simp [extractAllTagIds, extractTagId, findPreferred, preferidos, lookupField,
      strTrim, trimChars, addTagStep]
    decide

/-- Witness for C6's quantified parts at a concrete payload. -/
theorem C6_extractAllTagIds_witness :
    (extractAllTagIds (Json.str "ABCD")).head? = some "ABCD" :=
  C6_extractAllTagIds.2.2.1 (Json.str "ABCD") "ABCD"
    (by simp [extractTagId, strTrim, trimChars, isHexHyphen]; decide) (by decide)

/-! ## Import/export lemmas -/

theorem parseMaletasFold_nil_of_noMaster (lines : List String)
    (h : ∀ l ∈ lines, strStartsWith l maestroMarker = false) :
    lines.foldl parseMaletasFold [] = [] := by
  induction lines with
  | nil => rfl
  | cons line rest ih =>
    rw [List.foldl_cons]
    have hstep : parseMaletasFold [] line = [] := by
      rw [parseMaletasFold]
      split
      · rfl
      · rw [if_neg (by simp [h line (List.mem_cons_self _ _)])]
    rw [hstep]
    exact ih (fun l hl => h l (List.mem_cons_of_mem _ hl))

/-- C5: a text in which no trimmed line starts with the `MAESTRO ` marker
parses to the empty case list, and importing it over an existing
collection leaves the collection unchanged — the stored list is replaced
only when the parse yields at least one case. -/
theorem C5_emptyImport (text : String) (current : List MaletaItem)
    (h : ∀ line ∈ (splitLinesNL text).map strTrim,
        strStartsWith line maestroMarker = false) :
    parseMaletasTxt text = [] ∧ importMaletas current text = current := by
  have hparse : parseMaletasTxt text = [] := by
    rw [parseMaletasTxt, parseMaletasFold_nil_of_noMaster _ h]
    rfl
  refine ⟨hparse, ?_⟩
  rw [importMaletas, hparse]
  rfl

/-- Witness for C5: a comment line and a stray product line over a
one-case collection. -/
theorem C5_emptyImport_witness :
    parseMaletasTxt "# hi\nABCD" = [] ∧
      importMaletas badRoundTripMaletas "# hi\nABCD" = badRoundTripMaletas :=
  C5_emptyImport "# hi\nABCD" badRoundTripMaletas (by decide)

theorem strMk_data (s : String) : (⟨s.data⟩ : String) = s := by
  cases s
  rfl

theorem strAppend_data (a b : String) : (a ++ b).data = a.data ++ b.data := by
  cases a
  cases b
  rfl

theorem splitChars_no_newline (cs : List Char) (h : '\n' ∉ cs) :
    splitChars cs = [cs] := by
  induction cs with
  | nil => rfl
  | cons c rest ih =>
    rw [splitChars, if_neg (by simp at h; exact fun hc => h.1 hc.symm)]
    rw [ih (by simp at h; exact h.2)]

theorem splitChars_append (a b : List Char) (h : '\n' ∉ a) :
    splitChars (a ++ '\n' :: b) = a :: splitChars b := by
  induction a with
  | nil => simp [splitChars]
  | cons c rest ih =>
    rw [List.cons_append, splitChars,
      if_neg (by simp at h; exact fun hc => h.1 hc.symm)]
    rw [ih (by simp at h; exact h.2)]

theorem splitChars_joinChars (Ls : List (List Char)) (hne : Ls ≠ [])
    (h : ∀ l ∈ Ls, '\n' ∉ l) :
    splitChars (joinChars Ls) = Ls := by
  induction Ls with
  | nil => exact absurd rfl hne
  | cons l rest ih =>
    rcases rest with _ | ⟨l2, rest2⟩
    · rw [joinChars]
      exact splitChars_no_newline l (h l (List.mem_cons_self _ _))
    · rw [joinChars, splitChars_append _ _ (h l (List.mem_cons_self _ _))]
      rw [ih (by simp) (fun x hx => h x (List.mem_cons_of_mem _ hx))]
      all_goals simp

theorem splitLinesNL_joinLinesNL (lines : List String) (hne : lines ≠ [])
    (h : ∀ l ∈ lines, '\n' ∉ l.data) :
    splitLinesNL (joinLinesNL lines) = lines := by
  rw [splitLinesNL, joinLinesNL]
  have : (⟨joinChars (lines.map String.data)⟩ : String).data =
      joinChars (lines.map String.data) := rfl
  rw [this, splitChars_joinChars (lines.map String.data)
    (by simpa using hne)
    (by intro l hl; rcases List.mem_map.mp hl with ⟨s, hs, rfl⟩; exact h s hs)]
  rw [← List.comp_map]
  have hid : (fun cs => (⟨cs⟩ : String)) ∘ String.data = id := by
    funext s
    exact strMk_data s
  rw [hid, List.map_id]

theorem dropWhile_eq_self_of_length {α : Type} (p : α → Bool) (l : List α)
    (h : (l.dropWhile p).length = l.length) : l.dropWhile p = l := by
  induction l with
  | nil => rfl
  | cons a t ih =>
    rw [List.dropWhile_cons]
    split
    · next hp =>
      rw [List.dropWhile_cons, if_pos hp] at h
      have := (@List.dropWhile_sublist _ t p).length_le
      simp at h
      omega
    · rfl

theorem trim_id_parts (cs : List Char) (h : trimChars cs = cs) :
    cs.dropWhile Char.isWhitespace = cs ∧
      cs.reverse.dropWhile Char.isWhitespace = cs.reverse := by
  have hlen : (trimChars cs).length = cs.length := by rw [h]
  rw [trimChars] at hlen
  simp only [List.length_reverse] at hlen
  have h2 := (@List.dropWhile_sublist _
    ((cs.dropWhile Char.isWhitespace).reverse) Char.isWhitespace).length_le
  simp only [List.length_reverse] at h2
  have h3 := (@List.dropWhile_sublist _ cs Char.isWhitespace).length_le
  have hinner : (cs.dropWhile Char.isWhitespace).length = cs.length := by omega
  have hfirst : cs.dropWhile Char.isWhitespace = cs :=
    dropWhile_eq_self_of_length _ _ hinner
  refine ⟨hfirst, ?_⟩
  apply dropWhile_eq_self_of_length
  rw [hfirst] at hlen
  simp only [List.length_reverse]
  exact hlen

theorem dropWhile_head_false {α : Type} (p : α → Bool) (a : α) (t : List α)
    (h : (a :: t).dropWhile p = a :: t) : p a = false := by
  rcases hp : p a with _ | _
  · rfl
  · rw [List.dropWhile_cons, if_pos hp] at h
    have := (@List.dropWhile_sublist _ t p).length_le
    have hl : (t.dropWhile p).length = t.length + 1 := by rw [h]; simp
    omega

theorem trim_append_marker (m : String) (h1 : strTrim m = m) (h2 : m ≠ "") :
    strTrim (maestroMarker ++ m) = maestroMarker ++ m := by
  have hdata : (maestroMarker ++ m).data = maestroMarker.data ++ m.data :=
    strAppend_data _ _
  have hparts : m.data.dropWhile Char.isWhitespace = m.data ∧
      m.data.reverse.dropWhile Char.isWhitespace = m.data.reverse := by
    apply trim_id_parts
    have : (strTrim m).data = m.data := by rw [h1]
    exact this
  have hmne : m.data ≠ [] := by
    intro hd
    exact h2 (by cases m; simp at hd; simp [hd])
  rw [strTrim, String.ext_iff, hdata]
  show trimChars (maestroMarker.data ++ m.data) = maestroMarker.data ++ m.data
  rcases hrev : m.data.reverse with _ | ⟨y, ys⟩
  · exact absurd (by simpa using hrev) hmne
  · have hy : Char.isWhitespace y = false := by
      apply dropWhile_head_false Char.isWhitespace y ys
      rw [← hrev]
      exact hparts.2
    rw [trimChars]
    have hfront : (maestroMarker.data ++ m.data).dropWhile Char.isWhitespace =
        maestroMarker.data ++ m.data := by
      rw [show maestroMarker.data = 'M' :: "AESTRO ".data from rfl]
      rw [List.cons_append, List.dropWhile_cons]
      simp
    rw [hfront, List.reverse_append, hrev, List.cons_append, List.dropWhile_cons]
    rw [if_neg (by simp [hy])]
    rw [← List.cons_append, ← hrev, ← List.reverse_append]
    exact List.reverse_reverse _

theorem isPrefixOf_append (l t : List Char) : l.isPrefixOf (l ++ t) = true := by
  induction l with
  | nil => simp [List.isPrefixOf]
  | cons c cs ih => simp [List.isPrefixOf, ih]

theorem flatMap_congr_mem {α β : Type} (l : List α) (f g : α → List β)
    (h : ∀ a ∈ l, f a = g a) : l.flatMap f = l.flatMap g := by
  induction l with
  | nil => rfl
  | cons a t ih =>
    rw [List.flatMap_cons, List.flatMap_cons, h a (List.mem_cons_self _ _),
      ih (fun x hx => h x (List.mem_cons_of_mem _ hx))]

theorem parseFold_master (st : List (String × List String)) (m : String)
    (h1 : m ≠ "") (h2 : strTrim m = m) :
    parseMaletasFold st (maestroMarker ++ m) = (m, []) :: st := by
  have hdata : (maestroMarker ++ m).data = maestroMarker.data ++ m.data :=
    strAppend_data _ _
  have hne : ¬(maestroMarker ++ m) = "" := by
    rw [String.ext_iff, hdata]
    intro hc
    have hlc := congrArg List.length hc
    simp at hlc
    exact absurd hlc.1 (by decide)
  have hnothash : strStartsWith (maestroMarker ++ m) "#" = false := by
    rw [strStartsWith, hdata]
    rfl
  have hmarker : strStartsWith (maestroMarker ++ m) maestroMarker = true := by
    rw [strStartsWith, hdata]
    exact isPrefixOf_append _ _
  have hdrop : strDrop (maestroMarker ++ m) maestroMarker.length = m := by
    rw [strDrop, hdata]
    rw [show maestroMarker.length = maestroMarker.data.length from rfl]
    rw [List.drop_left]
  rw [parseMaletasFold.eq_def]
  rw [if_neg (by simp [hne, hnothash])]
  rw [if_pos hmarker]
  rw [hdrop, h2]
  exact if_neg h1

theorem parseFold_products (ps : List String)
    (h : ∀ p ∈ ps, p ≠ "" ∧ strStartsWith p "#" = false ∧
        strStartsWith p maestroMarker = false) :
    ∀ (mst : String) (acc : List String) (st : List (String × List String)),
      ps.foldl parseMaletasFold ((mst, acc) :: st) = (mst, ps.reverse ++ acc) :: st := by
  induction ps with
  | nil => intro mst acc st; rfl
  | cons p rest ih =>
    intro mst acc st
    have hp := h p (List.mem_cons_self _ _)
    have hstep : parseMaletasFold ((mst, acc) :: st) p = (mst, p :: acc) :: st := by
      rw [parseMaletasFold.eq_def]
      rw [if_neg (by simp [hp.1, hp.2.1])]
      rw [if_neg (by simp [hp.2.2])]
    rw [List.foldl_cons, hstep,
      ih (fun x hx => h x (List.mem_cons_of_mem _ hx)) mst (p :: acc) st]
    simp

theorem parseFold_blank (st : List (String × List String)) :
    parseMaletasFold st "" = st := by
  rw [parseMaletasFold.eq_def, if_pos (by simp)]

/-- Folding one exported (and re-trimmed) case block pushes exactly that
case onto the state. -/
theorem parseFold_case (m : MaletaItem)
    (hm1 : m.masterRfid ≠ "") (hm2 : strTrim m.masterRfid = m.masterRfid)
    (hp : ∀ p ∈ m.productRfids, p ≠ "" ∧ strStartsWith p "#" = false ∧
        strStartsWith p maestroMarker = false)
    (st : List (String × List String)) :
    ((maestroMarker ++ m.masterRfid) :: (m.productRfids ++ [""])).foldl
        parseMaletasFold st = (m.masterRfid, m.productRfids.reverse) :: st := by
  rw [List.foldl_cons, parseFold_master st m.masterRfid hm1 hm2]
  rw [List.foldl_append]
  rw [parseFold_products m.productRfids hp m.masterRfid [] st]
  simp [parseFold_blank]

theorem parseFold_cases (maletas : List MaletaItem)
    (h : ∀ m ∈ maletas, goodCase m) :
    ∀ st : List (String × List String),
      (maletas.flatMap
          (fun m => (maestroMarker ++ m.masterRfid) :: (m.productRfids ++ [""]))).foldl
        parseMaletasFold st =
      (maletas.map (fun m => (m.masterRfid, m.productRfids.reverse))).reverse ++ st := by
  induction maletas with
  | nil => intro st; rfl
  | cons m ms ih =>
    intro st
    rw [List.flatMap_cons, List.foldl_append]
    have hm := h m (List.mem_cons_self _ _)
    rw [parseFold_case m hm.1.1 hm.1.2.1 (fun p hp => ⟨(hm.2 p hp).1,
      (hm.2 p hp).2.2.2.1, (hm.2 p hp).2.2.2.2⟩) st]
    rw [ih (fun x hx => h x (List.mem_cons_of_mem _ hx))]
    simp

theorem enumFrom_map_master (n : Nat) (l : List (String × List String)) :
    ((List.enumFrom n l).map
        (fun p => { id := "maleta_" ++ toString p.1, masterRfid := p.2.1,
                    productRfids := p.2.2.reverse, createdAt := "" : MaletaItem })).map
      (fun m => m.masterRfid) = l.map Prod.fst := by
  induction l generalizing n with
  | nil => rfl
  | cons x xs ih => simp [List.enumFrom, ih]

theorem enumFrom_map_products (n : Nat) (l : List (String × List String)) :
    ((List.enumFrom n l).map
        (fun p => { id := "maleta_" ++ toString p.1, masterRfid := p.2.1,
                    productRfids := p.2.2.reverse, createdAt := "" : MaletaItem })).map
      (fun m => m.productRfids) = l.map (fun c => c.2.reverse) := by
  induction l generalizing n with
  | nil => rfl
  | cons x xs ih => simp [List.enumFrom, ih]

theorem parseFold_skip (st : List (String × List String)) (l : String)
    (h : (decide (l = "") || strStartsWith l "#") = true) :
    parseMaletasFold st l = st := by
  rw [parseMaletasFold.eq_def, if_pos h]

/-- C4 (amended): export-then-parse reproduces the master-tag sequence
and the product-tag sequences exactly, for every collection whose master
tags are non-empty, trimmed and newline-free and whose product tags are
non-empty, trimmed, newline-free and do not start with `#` or the
`MAESTRO ` marker.  Only ids and timestamps differ. -/
theorem C4_roundTrip (maletas : List MaletaItem)
    (h : ∀ m ∈ maletas, goodCase m) :
    (parseMaletasTxt (exportMaletasToTxt maletas)).map (fun m => m.masterRfid) =
        maletas.map (fun m => m.masterRfid) ∧
      (parseMaletasTxt (exportMaletasToTxt maletas)).map (fun m => m.productRfids) =
        maletas.map (fun m => m.productRfids) := by
  have hnonl : ∀ l ∈ exportMaletasLines maletas, '\n' ∉ l.data := by
    intro l hl
    rw [exportMaletasLines] at hl
    rcases List.mem_append.mp hl with hl | hl
    · simp at hl
      rcases hl with rfl | rfl | rfl <;> decide
    · rcases List.mem_flatMap.mp hl with ⟨m, hm, hlm⟩
      have hgm := h m hm
      rcases List.mem_cons.mp hlm with rfl | hlm
      · rw [strAppend_data]
        rw [List.mem_append]
        rintro (hc | hc)
        · exact absurd hc (by decide)
        · exact hgm.1.2.2 hc
      · rcases List.mem_append.mp hlm with hlm | hlm
        · rcases List.mem_map.mp hlm with ⟨p, hp, rfl⟩
          rw [(hgm.2 p hp).2.1]
          exact (hgm.2 p hp).2.2.1
        · simp at hlm
          subst hlm
          decide
  have hsplit : splitLinesNL (exportMaletasToTxt maletas) = exportMaletasLines maletas := by
    rw [exportMaletasToTxt]
    exact splitLinesNL_joinLinesNL _ (by simp [exportMaletasLines]) hnonl
  have htrim : (exportMaletasLines maletas).map strTrim =
      ["# Maletas - qué hay que leer",
       "# MAESTRO = RFID de la maleta. Líneas debajo = productos hasta el próximo MAESTRO.",
       ""] ++
      maletas.flatMap
        (fun m => (maestroMarker ++ m.masterRfid) :: (m.productRfids ++ [""])) := by
    rw [exportMaletasLines, List.map_append]
    refine congrArg₂ (fun a b => a ++ b) (by decide) ?_
    rw [List.map_flatMap]
    apply flatMap_congr_mem
    intro m hm
    have hgm := h m hm
    rw [List.map_cons, trim_append_marker m.masterRfid hgm.1.2.1 hgm.1.1]
    refine congrArg₂ (fun a b => a :: b) rfl ?_
    rw [List.map_append]
    refine congrArg₂ (fun a b => a ++ b) ?_ (by decide)
    rw [List.map_map]
    have hmapid : m.productRfids.map (strTrim ∘ strTrim) = m.productRfids.map id :=
      List.map_eq_map_iff.mpr (by
        intro p hp
        have h2 := (hgm.2 p hp).2.1
        simp [Function.comp, h2])
    rw [hmapid, List.map_id]
  have hfold : ((splitLinesNL (exportMaletasToTxt maletas)).map strTrim).foldl
      parseMaletasFold [] =
        (maletas.map (fun m => (m.masterRfid, m.productRfids.reverse))).reverse := by
    rw [hsplit, htrim]
    rw [List.cons_append, List.cons_append, List.cons_append, List.nil_append]
    rw [List.foldl_cons, parseFold_skip _ _ (by decide)]
    rw [List.foldl_cons, parseFold_skip _ _ (by decide)]
    rw [List.foldl_cons, parseFold_skip _ _ (by decide)]
    rw [parseFold_cases maletas h []]
    simp
  rw [parseMaletasTxt]
  rw [hfold, List.reverse_reverse, List.enum]
  constructor
  · rw [enumFrom_map_master, List.map_map]
    rfl
  · rw [enumFrom_map_products, List.map_map]
    simp [Function.comp]

/-- C4 counterexample: for the concrete collection whose single product
tag is `"#X"`, export-then-parse does not reproduce the product
multisets: the exported product line is skipped as a comment.  The claim
is therefore false as a statement about every case collection. -/
theorem C4_counterexample :
    ¬ ((parseMaletasTxt (exportMaletasToTxt badRoundTripMaletas)).map
          (fun m => m.masterRfid) =
        badRoundTripMaletas.map (fun m => m.masterRfid) ∧
      (parseMaletasTxt (exportMaletasToTxt badRoundTripMaletas)).map
          (fun m => (m.productRfids : Multiset String)) =
        badRoundTripMaletas.map (fun m => (m.productRfids : Multiset String))) := by
  decide

/-- Witness for C4 (amended) at a concrete well-formed collection. -/
theorem C4_roundTrip_witness :
    (parseMaletasTxt (exportMaletasToTxt goodRoundTripMaletas)).map
        (fun m => m.masterRfid) =
      goodRoundTripMaletas.map (fun m => m.masterRfid) ∧
      (parseMaletasTxt (exportMaletasToTxt goodRoundTripMaletas)).map
          (fun m => m.productRfids) =
        goodRoundTripMaletas.map (fun m => m.productRfids) :=
  C4_roundTrip goodRoundTripMaletas (by
    intro m hm
    simp [goodRoundTripMaletas] at hm
    rcases hm with rfl | rfl <;> exact ⟨by decide, by decide⟩)
